import Mathlib

/-!
GF(2) rows and the key generator of the white-box AES construction.

A shallow embedding of `primitives/matrix/row.go` (namespace `matrix`) and of
`constructions/chow/keygen.go` (namespace `chow`).

* A Go `byte` is a natural number below `256`; a `Row` (`[]byte`) is a list of
  them, and `WF e` says that every element of `e` really is a byte.
* A Go `int` index is an `Int`.  Go's `/` on `int` truncates towards zero
  (`Int.tdiv`) and the conversion `uint(i)` wraps modulo `2 ^ 64`.
* A run-time panic (explicit `panic(...)`, or a slice/array index out of range)
  is the result `none`.
* `SetBit` mutates its receiver in place; here it returns the new contents.
  Where sharing matters (`Dup`), rows are slices of an explicit heap.
-/

namespace matrix

/-- A binary row / vector in GF(2)^n: `type Row []byte`. -/
abbrev Row := List Nat

/-- Every element of the row is a byte. -/
def WF (e : Row) : Prop := ∀ b ∈ e, b < 256

instance (e : Row) : Decidable (WF e) := by
  unfold WF; infer_instance

/-- The parity table `var weight [4]uint64`: bit `b` of the 256-bit table is the
parity of the byte `b`. -/
def weight : List Nat :=
  [0x6996966996696996, 0x9669699669969669,
   0x9669699669969669, 0x6996966996696996]

/-- A slice index expression `e[q]` with a Go `int` index: panics when the
index is negative or not below `len(e)`. -/
def index (e : Row) (q : Int) : Option Nat :=
  if q < 0 then none else e[q.toNat]?

/-- The conversion `uint(i)` of a Go `int`. -/
def toUint (i : Int) : Nat := (i % 2 ^ 64).toNat

/-- The loop of `LessThan`, entered once the lengths are known to be equal:
`for k := range i`, reading `i[k]` and `j[k]`.  The byte `j[k] &^ i[k]` is
`j[k]` with the bits of `i[k]` cleared. -/
def LessThan.loop : Row → Row → Bool
  | ik :: i, jk :: j =>
    if ik ≠ 0 ∧ jk ≠ 0 then
      if ik < jk &&& (0xFF ^^^ ik) then false else true
    else LessThan.loop i j
  | _, _ => false

/-- The function `LessThan(i, j Row) bool`. -/
def LessThan (i j : Row) : Option Bool :=
  if i.length ≠ j.length then none
  else some (LessThan.loop i j)

/-- The method `(e Row) Add(f Row) Row`: adds (XORs) two vectors. -/
def Add (e f : Row) : Option Row :=
  if e.length ≠ f.length then none
  else some (List.zipWith (fun a b => a ^^^ b) e f)

/-- The method `(e Row) Mul(f Row) Row`: component-wise multiplies (ANDs) two
vectors. -/
def Mul (e f : Row) : Option Row :=
  if e.length ≠ f.length then none
  else some (List.zipWith (fun a b => a &&& b) e f)

/-- One iteration of the loop of `DotProduct`:
`parity ^= (weight[g_i/64] >> (g_i % 64)) & 1`. -/
def DotProduct.step (parity g_i : Nat) : Option Nat := do
  let w ← weight[g_i / 64]?
  pure (parity ^^^ ((w >>> (g_i % 64)) &&& 1))

/-- The method `(e Row) DotProduct(f Row) bool`. -/
def DotProduct (e f : Row) : Option Bool := do
  let g ← Mul e f
  let parity ← g.foldlM DotProduct.step 0
  pure (parity == 1)

/-- The method `(e Row) GetBit(i int) byte`:
`(e[i/8] >> (uint(i) % 8)) & 1`. -/
def GetBit (e : Row) (i : Int) : Option Nat := do
  let b ← index e (Int.tdiv i 8)
  pure ((b >>> (toUint i % 8)) &&& 1)

/-- The method `(e Row) SetBit(i int, x bool)`; the result is the row after the
call. -/
def SetBit (e : Row) (i : Int) (x : Bool) : Option Row := do
  let y ← GetBit e i
  if (y = 0 ∧ x = true) ∨ (y = 1 ∧ x = false) then
    let b ← index e (Int.tdiv i 8)
    pure (e.set (Int.tdiv i 8).toNat (b ^^^ ((1 <<< (toUint i % 8)) % 256)))
  else
    pure e

/-- The method `(e Row) Size() int`. -/
def Size (e : Row) : Int := 8 * (e.length : Int)

/-- One iteration of the loop of `Weight`:
`if e.GetBit(i) == 1 { w += 1 }`. -/
def Weight.step (e : Row) (w : Nat) (i : Nat) : Option Nat := do
  let y ← GetBit e (i : Int)
  pure (if y = 1 then w + 1 else w)

/-- The method `(e Row) Weight() (w int)`:
`for i := 0; i < e.Size(); i++`. -/
def Weight (e : Row) : Option Nat :=
  (List.range (Size e).toNat).foldlM (Weight.step e) 0

/-- The method `(e Row) IsZero() bool`. -/
def IsZero : Row → Bool
  | [] => true
  | e_i :: e => if e_i ≠ 0 then false else IsZero e

/-! ## Notions used to state the properties -/

/-- The number of 1 bits of a byte: how many of its bits 0 to 7 are set. -/
def bitCount (b : Nat) : Nat :=
  ((List.range 8).filter (fun k => b.testBit k)).length

/-- The bit positions of a row that hold a 1, in increasing order. -/
def setBits (e : Row) : List Nat :=
  (List.range (8 * e.length)).filter (fun (k : Nat) => GetBit e (k : Int) = some 1)

/-- The height of a row: the position (`GetBit` index) of its highest set
bit; `none` for a row without a set bit. -/
def height (e : Row) : Option Nat := (setBits e).getLast?

/-- The value of bit `k` of the row, as a Boolean; `false` outside the row. -/
def bitAt (e : Row) (k : Nat) : Bool :=
  match e[k / 8]? with
  | some b => b.testBit (k % 8)
  | none => false

/-- The row of `n` bytes that is identically zero. -/
def zeroRow (n : Nat) : Row := List.replicate n 0

/-- The unit row `e_a` of `n` bytes: the zero row after `SetBit(a, true)`. -/
def unitRow (n a : Nat) : Option Row := SetBit (zeroRow n) (a : Int) true

/-! ## Rows in memory

`Dup` is about sharing: a `Row` is a Go slice, a view of a backing array that
other slices may share.  The heap is the list of the backing arrays, the
address of an array being its position; `make` allocates at the first free
address. -/

/-- The backing arrays of all slices, by address. -/
abbrev Heap := List (List Nat)

/-- A Go slice value of type `Row`: the address of its backing array, the
offset of its first element in the array, and its length. -/
structure Slice where
  arr : Nat
  off : Nat
  len : Nat
  deriving DecidableEq

/-- The elements of a slice; `none` when the slice is not a view of an array
of the heap. -/
def load (h : Heap) (s : Slice) : Option Row := do
  let a ← h[s.arr]?
  if s.off + s.len ≤ a.length then pure ((a.drop s.off).take s.len) else none

/-- Overwrites the elements of a slice in its backing array. -/
def store (h : Heap) (s : Slice) (r : Row) : Option Heap := do
  let a ← h[s.arr]?
  if s.off + s.len ≤ a.length ∧ r.length = s.len then
    pure (h.set s.arr (a.take s.off ++ r ++ a.drop (s.off + s.len)))
  else none

/-- The allocation `make([]byte, n)`: a fresh zeroed array and the slice of all
of it. -/
def make (h : Heap) (n : Nat) : Heap × Slice :=
  (h ++ [List.replicate n 0], Slice.mk h.length 0 n)

/-- The builtin `copy(dst, src)`: copies `min(len(dst), len(src))` elements. -/
def copy (h : Heap) (dst src : Slice) : Option Heap := do
  let s ← load h src
  let d ← load h dst
  store h dst (s.take d.length ++ d.drop s.length)

/-- The method `(e Row) Dup() Row`, on the heap:
`f := Row(make([]byte, len(e))); copy(f, e); return f`. -/
def Dup (h : Heap) (e : Slice) : Option (Heap × Slice) := do
  let (h1, f) := make h e.len
  let h2 ← copy h1 f e
  pure (h2, f)

/-- The method `SetBit` called on a slice of the heap: the elements of the
slice are updated in place. -/
def SetBitIn (h : Heap) (e : Slice) (i : Int) (x : Bool) : Option Heap := do
  let r ← load h e
  let r' ← SetBit r i x
  store h e r'

end matrix

/-!
The key generator of the white-box construction (`constructions/chow/keygen.go`).

`GenerateKeys` is translated from the source.  The packages `saes`, `encoding`
and `table` that it imports are not among the sources, nor are the types
`TBox`, `TyiTable` and `XORTable` of its own package: the tables and encodings
that `GenerateKeys` builds are recorded by the expressions that construct them,
and the methods of the AES oracle are parameters.  A Go array `[n]T` is a
function on `Fin n`.
-/

namespace saes

/-- Modelled from the spec: the type `saes.Construction` of the reference AES
(the key-schedule oracle of the spec), built as `saes.Construction{key}`; its
declaration is not among the sources. -/
structure Construction where
  Key : Fin 16 → Nat

/-- Modelled from the spec: the methods of `saes.Construction` that the key
generator relies on, which are not among the sources and are taken as
parameters: `StretchedKey` returns the 11 round keys of 16 bytes, `ShiftRows`
permutes a block, `SubByte` is the S-box. -/
structure Methods where
  StretchedKey : Construction → Fin 11 → Fin 16 → Nat
  ShiftRows : Construction → (Fin 16 → Nat) → Fin 16 → Nat
  SubByte : Construction → Nat → Nat

end saes

namespace encoding

/-- Modelled from the spec: the encodings of a 4-bit value built by
`GenerateKeys`, all of the form `encoding.ForLocation{position, subposition}`:
the encoding selected by a location. -/
inductive Nibble where
  | ForLocation (position subposition : Nat)
  deriving DecidableEq

/-- Modelled from the spec: the encodings of a byte built by `GenerateKeys`:
`encoding.IdentityByte{}` and `encoding.ConcatenatedByte{left, right}`, the
concatenation of two nibble encodings. -/
inductive Byte where
  | IdentityByte
  | ConcatenatedByte (left right : Nibble)
  deriving DecidableEq

/-- Modelled from the spec: the encodings of a 32-bit word built by
`GenerateKeys`, all of the form `encoding.WordEncodingForLocation(pos)`. -/
inductive Word where
  | WordEncodingForLocation (pos : Nat)
  deriving DecidableEq

end encoding

namespace table

/-- Modelled from the spec: the byte tables built by `GenerateKeys`, all of
the form `TBox{constr, k1, k2}`: the S-box of `constr` keyed with the byte `k1`
and followed by an XOR with the byte `k2`. -/
inductive Byte where
  | TBox (constr : saes.Construction) (k1 k2 : Nat)

/-- Modelled from the spec: the word tables built by `GenerateKeys`:
`TyiTable(col)`, the diffusion table of a column; `table.ComposedToWord{b, w}`,
a byte table followed by a word table; and `encoding.WordTable{In, Out,
Hidden}`, a word table between an input and an output encoding. -/
inductive Word where
  | TyiTable (col : Nat)
  | ComposedToWord (b : Byte) (w : Word)
  | WordTable (In : encoding.Byte) (Out : encoding.Word) (Hidden : Word)

/-- Modelled from the spec: the nibble tables built by `GenerateKeys`:
`XORTable{}`, the XOR of the two nibbles of a byte, and
`encoding.NibbleTable{In, Out, Hidden}`, a nibble table between an input and an
output encoding. -/
inductive Nibble where
  | XORTable
  | NibbleTable (In Out : encoding.Byte) (Hidden : Nibble)

/-- Modelled from the spec: the lookup of a T-Box, `Sbox(x XOR k1) XOR k2`
(keyed S-box substitution with a trailing round-key XOR). -/
def Byte.Get (m : saes.Methods) : Byte → Nat → Nat
  | Byte.TBox constr k1 k2, x => m.SubByte constr (x ^^^ k1) ^^^ k2

/-- The output encoding of an encoded word table. -/
def Word.Out : Word → Option encoding.Word
  | Word.WordTable _ out _ => some out
  | _ => none

/-- The input encoding of an encoded nibble table. -/
def Nibble.In : Nibble → Option encoding.Byte
  | Nibble.NibbleTable inp _ _ => some inp
  | _ => none

end table

namespace chow

/-- The three results of `GenerateKeys`:
`tyi [9][16]table.Word, tbox [16]table.Byte, xor [9][32][3]table.Nibble`. -/
structure Keys where
  tyi : Fin 9 → Fin 16 → table.Word
  tbox : Fin 16 → table.Byte
  xor : Fin 9 → Fin 32 → Fin 3 → table.Nibble

/-- The first loop of `GenerateKeys`, which applies ShiftRows to the round keys
0 to 9 in place:
`for k := 0; k < 10; k++ { roundKeys[k] = constr.ShiftRows(roundKeys[k]) }`. -/
def shiftRoundKeys (m : saes.Methods) (constr : saes.Construction)
    (roundKeys : Fin 11 → Fin 16 → Nat) : Fin 11 → Fin 16 → Nat :=
  (List.finRange 10).foldl
    (fun rk k => Function.update rk (Fin.castLE (by decide) k)
      (m.ShiftRows constr (rk (Fin.castLE (by decide) k))))
    roundKeys

/-- The function `GenerateKeys(key [16]byte)`. -/
def GenerateKeys (m : saes.Methods) (key : Fin 16 → Nat) : Keys :=
  let constr : saes.Construction := saes.Construction.mk key
  let roundKeys := shiftRoundKeys m constr (m.StretchedKey constr)
  Keys.mk
    (fun round pos =>
      table.Word.WordTable
        encoding.Byte.IdentityByte
        (encoding.Word.WordEncodingForLocation pos.val)
        (table.Word.ComposedToWord
          (table.Byte.TBox constr (roundKeys (Fin.castLE (by decide) round) pos) 0)
          (table.Word.TyiTable (pos.val % 4))))
    (fun pos =>
      table.Byte.TBox constr (roundKeys 9 pos) (roundKeys 10 pos))
    (fun _ pos t =>
      if t.val = 0 then
        table.Nibble.NibbleTable
          (encoding.Byte.ConcatenatedByte
            (encoding.Nibble.ForLocation (pos.val / 8 * 4 + 0) (pos.val % 8))
            (encoding.Nibble.ForLocation (pos.val / 8 * 4 + 1) (pos.val % 8)))
          encoding.Byte.IdentityByte
          table.Nibble.XORTable
      else if t.val = 1 then
        table.Nibble.NibbleTable
          (encoding.Byte.ConcatenatedByte
            (encoding.Nibble.ForLocation (pos.val / 8 * 4 + 2) (pos.val % 8))
            (encoding.Nibble.ForLocation (pos.val / 8 * 4 + 3) (pos.val % 8)))
          encoding.Byte.IdentityByte
          table.Nibble.XORTable
      else
        table.Nibble.XORTable)

/-- The index of the input byte that `ShiftRows` puts at position `i`.  The 16
bytes are the 4 x 4 AES state stored column by column, byte `4 * c + r` being
row `r` of column `c`; row `r` is rotated left by `r` columns. -/
def ShiftRows.source (i : Fin 16) : Fin 16 :=
  ⟨4 * ((i.val / 4 + i.val % 4) % 4) + i.val % 4, by omega⟩

/-- Modelled from the spec: `ShiftRows`, whose code is not among the sources
(only its test and its call in `GenerateKeys` are): it applies the fixed AES
byte permutation to a 16-byte state. -/
def ShiftRows (state : Fin 16 → Nat) : Fin 16 → Nat :=
  fun i => state (ShiftRows.source i)

/-- A 16-byte state from the list of its bytes. -/
def stateOf (l : List Nat) : Fin 16 → Nat := fun i => l.getD i.val 0

/-- The location whose nibble encoding decodes half `h` of the input of the
first-level table `t` of the reduction cell `pos`. -/
def inputLocation (p : Fin 32 × Fin 2 × Fin 2) : Fin 16 × Fin 8 :=
  (⟨p.1.val / 8 * 4 + 2 * p.2.1.val + p.2.2.val, by omega⟩, ⟨p.1.val % 8, by omega⟩)

end chow

namespace matrix

/-! ## Helper lemmas -/

theorem zipWith_xor_cancel (i j : Row) (h : i.length = j.length) :
    List.zipWith (fun a b => a ^^^ b) (List.zipWith (fun a b => a ^^^ b) i j) j = i := by
  induction i generalizing j with
  | nil => cases j <;> simp_all
  | cons a i ih =>
    cases j with
    | nil => simp at h
    | cons b j =>
      simp only [List.length_cons, Nat.add_right_cancel_iff] at h
      simp [List.zipWith, ih j h, Nat.xor_assoc]

theorem zipWith_and_self (i : Row) :
    List.zipWith (fun a b => a &&& b) i i = i := by
  induction i with
  | nil => rfl
  | cons a i ih => simp [List.zipWith, ih]

theorem Add_eq_some (e f : Row) (h : e.length = f.length) :
    Add e f = some (List.zipWith (fun a b => a ^^^ b) e f) := by
  simp [Add, h]

theorem Mul_eq_some (e f : Row) (h : e.length = f.length) :
    Mul e f = some (List.zipWith (fun a b => a &&& b) e f) := by
  simp [Mul, h]

theorem and_le_byte (a b : Nat) (h : a < 256) : a &&& b < 256 :=
  lt_of_le_of_lt Nat.and_le_left h

theorem WF_tail {a : Nat} {e : Row} (h : WF (a :: e)) : WF e :=
  fun x hx => h x (List.mem_cons_of_mem a hx)

theorem WF_head {a : Nat} {e : Row} (h : WF (a :: e)) : a < 256 :=
  h a (List.mem_cons_self a e)

theorem WF_zipWith_and (e f : Row) (he : WF e) :
    WF (List.zipWith (fun a b => a &&& b) e f) := by
  induction e generalizing f with
  | nil => intro b hb; simp at hb
  | cons a e ih =>
    cases f with
    | nil => intro b hb; simp at hb
    | cons c f =>
      intro b hb
      simp only [List.zipWith_cons_cons, List.mem_cons] at hb
      rcases hb with rfl | hb
      · exact and_le_byte a c (he a (by simp))
      · exact ih f (WF_tail he) b hb

theorem WF_zipWith_xor (e f : Row) (he : WF e) (hf : WF f) :
    WF (List.zipWith (fun a b => a ^^^ b) e f) := by
  induction e generalizing f with
  | nil => intro b hb; simp at hb
  | cons a e ih =>
    cases f with
    | nil => intro b hb; simp at hb
    | cons c f =>
      intro b hb
      simp only [List.zipWith_cons_cons, List.mem_cons] at hb
      rcases hb with rfl | hb
      · exact @Nat.xor_lt_two_pow a c 8 (he a (by simp)) (hf c (by simp))
      · exact ih f (WF_tail he) (WF_tail hf) b hb

set_option maxRecDepth 100000 in
theorem weight_table : ∀ b < 256,
    (weight[b / 64]?).map (fun w => (w >>> (b % 64)) &&& 1) = some (bitCount b % 2) := by
  decide

theorem step_eq (p b : Nat) (hb : b < 256) :
    DotProduct.step p b = some (p ^^^ (bitCount b % 2)) := by
  have h := weight_table b hb
  unfold DotProduct.step
  have hi : b / 64 < weight.length := by simp [weight]; omega
  rw [List.getElem?_eq_getElem hi] at h ⊢
  simp only [Option.map_some', Option.some.injEq] at h
  simp only [Option.bind_eq_bind, Option.some_bind, Option.pure_def, h]

theorem foldlM_step (g : Row) (hg : WF g) (p : Nat) :
    g.foldlM DotProduct.step p
      = some (g.foldl (fun q b => q ^^^ (bitCount b % 2)) p) := by
  induction g generalizing p with
  | nil => rfl
  | cons b g ih =>
    rw [List.foldlM_cons, step_eq p b (hg b (by simp))]
    simp only [Option.bind_eq_bind, Option.some_bind, List.foldl_cons]
    exact ih (WF_tail hg) _

theorem DotProduct_eq_some (e f : Row) (he : WF e) (h : e.length = f.length) :
    DotProduct e f = some ((List.zipWith (fun a b => a &&& b) e f).foldl
      (fun q b => q ^^^ (bitCount b % 2)) 0 == 1) := by
  unfold DotProduct
  rw [Mul_eq_some e f h]
  simp only [Option.bind_eq_bind, Option.some_bind]
  rw [foldlM_step _ (WF_zipWith_and e f he)]
  rfl

/-! ### Bits of a byte and `GetBit` at a non-negative index -/

theorem tdiv_natCast (n : Nat) : Int.tdiv (n : Int) 8 = ((n / 8 : Nat) : Int) := by
  rw [Int.ofNat_tdiv]; rfl

theorem toUint_natCast (n : Nat) : toUint (n : Int) % 8 = n % 8 := by
  unfold toUint; omega

theorem index_natCast (e : Row) (q : Nat) : index e (q : Int) = e[q]? := by
  simp [index]

theorem bit_eq_div (b k : Nat) : (b >>> k) &&& 1 = b / 2 ^ k % 2 := by
  rw [Nat.and_one_is_mod, Nat.shiftRight_eq_div_pow]

theorem bit_eq_ite (b k : Nat) : (b >>> k) &&& 1 = if b.testBit k then 1 else 0 := by
  rw [bit_eq_div, Nat.testBit_to_div_mod]
  have : b / 2 ^ k % 2 < 2 := Nat.mod_lt _ (by decide)
  by_cases h : b / 2 ^ k % 2 = 1
  · simp [h]
  · simp only [h, decide_False, Bool.false_eq_true, if_false]; omega

theorem GetBit_natCast (e : Row) (n : Nat) :
    GetBit e (n : Int) = (e[n / 8]?).map (fun b => if b.testBit (n % 8) then 1 else 0) := by
  unfold GetBit
  rw [tdiv_natCast, toUint_natCast, index_natCast]
  cases e[n / 8]? with
  | none => rfl
  | some b => simp only [bit_eq_ite]; rfl

theorem GetBit_eq_one_iff (e : Row) (n : Nat) :
    GetBit e (n : Int) = some 1 ↔ bitAt e n = true := by
  rw [GetBit_natCast]; unfold bitAt
  cases e[n / 8]? with
  | none => simp
  | some b => by_cases h : b.testBit (n % 8) <;> simp [h]

theorem GetBit_inRange (e : Row) (n : Nat) (h : n < 8 * e.length) :
    GetBit e (n : Int) = some (if bitAt e n then 1 else 0) := by
  rw [GetBit_natCast]; unfold bitAt
  have hq : n / 8 < e.length := by omega
  rw [List.getElem?_eq_getElem hq]
  rfl

theorem setBits_eq (e : Row) :
    setBits e = (List.range (8 * e.length)).filter (bitAt e) := by
  unfold setBits
  apply List.filter_congr
  intro k _
  by_cases h : bitAt e k = true
  · simp [h, (GetBit_eq_one_iff e k).2 h]
  · have h' : ¬ GetBit e (k : Int) = some 1 := fun hc => h ((GetBit_eq_one_iff e k).1 hc)
    simp [h, h']

/-! ### `Weight` counts the set bits -/

theorem Size_toNat (e : Row) : (Size e).toNat = 8 * e.length := by
  unfold Size; omega

theorem Weight_step_inRange (e : Row) (w k : Nat) (hk : k < 8 * e.length) :
    Weight.step e w k = some (if bitAt e k then w + 1 else w) := by
  unfold Weight.step
  rw [GetBit_inRange e k hk]
  by_cases h : bitAt e k = true <;> simp [h]

theorem foldlM_Weight_step (e : Row) (l : List Nat) (hl : ∀ k ∈ l, k < 8 * e.length)
    (w : Nat) :
    l.foldlM (Weight.step e) w = some (w + (l.filter (bitAt e)).length) := by
  induction l generalizing w with
  | nil => rfl
  | cons k l ih =>
    have hk : k < 8 * e.length := hl k (List.mem_cons_self k l)
    have hl' : ∀ x ∈ l, x < 8 * e.length := fun x hx => hl x (List.mem_cons_of_mem k hx)
    rw [List.foldlM_cons, Weight_step_inRange e w k hk]
    simp only [Option.bind_eq_bind, Option.some_bind]
    rw [ih hl']
    by_cases h : bitAt e k = true
    · simp [h, List.filter_cons]; omega
    · simp [h, List.filter_cons]

theorem Weight_eq_setBits (e : Row) : Weight e = some (setBits e).length := by
  unfold Weight
  rw [Size_toNat, foldlM_Weight_step e _ (fun k hk => List.mem_range.1 hk), setBits_eq]
  simp

theorem bitAt_cons_lt (b : Nat) (e : Row) (k : Nat) (hk : k < 8) :
    bitAt (b :: e) k = b.testBit k := by
  unfold bitAt
  have h1 : k / 8 = 0 := by omega
  have h2 : k % 8 = k := by omega
  simp [h1, h2]

theorem bitAt_cons_add (b : Nat) (e : Row) (k : Nat) :
    bitAt (b :: e) (8 + k) = bitAt e k := by
  unfold bitAt
  have h1 : (8 + k) / 8 = k / 8 + 1 := by omega
  have h2 : (8 + k) % 8 = k % 8 := by omega
  simp [h1, h2]

theorem setBits_length (e : Row) : (setBits e).length = (e.map bitCount).sum := by
  rw [setBits_eq]
  induction e with
  | nil => rfl
  | cons b e ih =>
    have hlen : 8 * (b :: e).length = 8 + 8 * e.length := by simp; omega
    rw [hlen, List.range_add, List.filter_append, List.length_append, List.filter_map,
      List.length_map, List.map_cons, List.sum_cons]
    congr 1
    · unfold bitCount
      congr 1
      apply List.filter_congr
      intro k hk
      exact bitAt_cons_lt b e k (List.mem_range.1 hk)
    · rw [← ih]
      congr 1
      apply List.filter_congr
      intro k _
      exact bitAt_cons_add b e k

theorem bitCount_le (b : Nat) : bitCount b ≤ 8 := by
  unfold bitCount
  exact le_trans (List.length_filter_le _ _) (by simp)

theorem sum_bitCount_le (e : Row) : (e.map bitCount).sum ≤ 8 * e.length := by
  induction e with
  | nil => simp
  | cons b e ih =>
    have := bitCount_le b
    simp only [List.map_cons, List.sum_cons, List.length_cons]
    omega

/-! ### `DotProduct` and the parity of the component-wise AND -/

theorem xor_parity (q c : Nat) (hq : q < 2) : q ^^^ (c % 2) = (q + c) % 2 := by
  have hc : c % 2 < 2 := Nat.mod_lt _ (by decide)
  have key : ∀ a < 2, ∀ b < 2, a ^^^ b = (a + b) % 2 := by decide
  rw [key q hq (c % 2) hc]
  omega

theorem foldl_parity (g : Row) (p : Nat) (hp : p < 2) :
    g.foldl (fun q b => q ^^^ (bitCount b % 2)) p = (p + (g.map bitCount).sum) % 2 := by
  induction g generalizing p with
  | nil => simp; omega
  | cons b g ih =>
    rw [List.foldl_cons, xor_parity p _ hp, ih _ (Nat.mod_lt _ (by decide))]
    simp only [List.map_cons, List.sum_cons]
    omega

theorem bitAt_zipWith_and (e f : Row) (k : Nat) :
    bitAt (List.zipWith (fun a b => a &&& b) e f) k = (bitAt e k && bitAt f k) := by
  unfold bitAt
  rw [List.getElem?_zipWith]
  cases e[k / 8]? <;> cases f[k / 8]? <;> simp [Nat.testBit_and]

theorem setBits_zipWith_and (e f : Row) (h : e.length = f.length) :
    setBits (List.zipWith (fun a b => a &&& b) e f)
      = (List.range (8 * e.length)).filter
          (fun (k : Nat) => GetBit e (k : Int) = some 1 ∧ GetBit f (k : Int) = some 1) := by
  rw [setBits_eq]
  have hl : (List.zipWith (fun a b => a &&& b) e f).length = e.length := by simp [h]
  rw [hl]
  apply List.filter_congr
  intro k _
  rw [bitAt_zipWith_and]
  by_cases h1 : bitAt e k = true <;> by_cases h2 : bitAt f k = true <;>
    simp [GetBit_eq_one_iff, h1, h2]

/-! ### `SetBit` at a non-negative index -/

theorem shift_byte (s : Nat) (hs : s < 8) : (1 <<< s) % 256 = 2 ^ s := by
  have key : ∀ t < 8, (1 <<< t) % 256 = 2 ^ t := by decide
  exact key s hs

theorem testBit_flip (b s : Nat) : (b ^^^ 2 ^ s).testBit s = !b.testBit s := by
  rw [Nat.testBit_xor, Nat.testBit_two_pow_self]
  cases b.testBit s <;> rfl

theorem testBit_flip_ne (b s t : Nat) (h : s ≠ t) :
    (b ^^^ 2 ^ s).testBit t = b.testBit t := by
  rw [Nat.testBit_xor, Nat.testBit_two_pow]
  simp [h]

theorem SetBit_natCast (e : Row) (n : Nat) (x : Bool) (b : Nat) (hb : e[n / 8]? = some b) :
    SetBit e (n : Int) x
      = some (if b.testBit (n % 8) = x then e else e.set (n / 8) (b ^^^ 2 ^ (n % 8))) := by
  unfold SetBit
  rw [GetBit_natCast, hb, tdiv_natCast, toUint_natCast, index_natCast, hb,
    shift_byte _ (Nat.mod_lt _ (by decide)), Int.toNat_ofNat]
  cases x <;> by_cases h : b.testBit (n % 8) = true <;> simp [h]

theorem inRange_getElem? (e : Row) (n : Nat) (h : n < 8 * e.length) :
    ∃ b, e[n / 8]? = some b := by
  have hq : n / 8 < e.length := by omega
  exact ⟨e[n / 8], List.getElem?_eq_getElem hq⟩

theorem int_inRange (e : Row) (i : Int) (h0 : 0 ≤ i) (h1 : i < Size e) :
    ∃ n : Nat, i = (n : Int) ∧ n < 8 * e.length := by
  refine ⟨i.toNat, by omega, ?_⟩
  unfold Size at h1
  omega

/-! ### `IsZero` -/

theorem IsZero_iff (e : Row) : IsZero e = true ↔ ∀ b ∈ e, b = 0 := by
  induction e with
  | nil => simp [IsZero]
  | cons a e ih =>
    unfold IsZero
    by_cases h : a = 0
    · simp [h, ih]
    · simp [h]

set_option maxRecDepth 100000 in
theorem bitCount_eq_zero : ∀ b < 256, bitCount b = 0 → b = 0 := by
  decide

theorem sum_bitCount_eq_zero (e : Row) (he : WF e) :
    (e.map bitCount).sum = 0 ↔ ∀ b ∈ e, b = 0 := by
  induction e with
  | nil => simp
  | cons a e ih =>
    simp only [List.map_cons, List.sum_cons, List.mem_cons, forall_eq_or_imp]
    rw [Nat.add_eq_zero_iff, ih (WF_tail he)]
    constructor
    · rintro ⟨h1, h2⟩
      exact ⟨bitCount_eq_zero a (WF_head he) h1, h2⟩
    · rintro ⟨rfl, h2⟩
      exact ⟨by decide, h2⟩

theorem setBits_eq_nil_iff (e : Row) :
    setBits e = [] ↔ ∀ k : Int, 0 ≤ k → k < Size e → GetBit e k = some 0 := by
  rw [setBits_eq, List.filter_eq_nil_iff]
  constructor
  · intro h k h0 h1
    obtain ⟨n, rfl, hn⟩ := int_inRange e k h0 h1
    rw [GetBit_inRange e n hn, if_neg (h n (List.mem_range.2 hn))]
  · intro h n hn hbit
    have hn' : n < 8 * e.length := List.mem_range.1 hn
    have h1 := h (n : Int) (by omega) (by unfold Size; omega)
    rw [GetBit_inRange e n hn', if_pos hbit] at h1
    simp at h1

/-! ### Slices of the heap -/

theorem load_eq_some (h : Heap) (s : Slice) (r : Row) (hl : load h s = some r) :
    ∃ a, h[s.arr]? = some a ∧ s.off + s.len ≤ a.length ∧ r = (a.drop s.off).take s.len := by
  unfold load at hl
  cases ha : h[s.arr]? with
  | none => simp [ha] at hl
  | some a =>
    simp only [ha, Option.bind_eq_bind, Option.some_bind] at hl
    by_cases hb : s.off + s.len ≤ a.length
    · rw [if_pos hb] at hl
      exact ⟨a, rfl, hb, (Option.some.inj hl).symm⟩
    · rw [if_neg hb] at hl
      cases hl

theorem load_length (h : Heap) (s : Slice) (r : Row) (hl : load h s = some r) :
    r.length = s.len := by
  obtain ⟨a, _, hb, rfl⟩ := load_eq_some h s r hl
  simp only [List.length_take, List.length_drop]
  omega

theorem load_arr_lt (h : Heap) (s : Slice) (r : Row) (hl : load h s = some r) :
    s.arr < h.length := by
  obtain ⟨a, ha, _, _⟩ := load_eq_some h s r hl
  by_contra hc
  rw [List.getElem?_eq_none (by omega)] at ha
  cases ha

theorem load_of_getElem? (h h' : Heap) (s : Slice) (hh : h'[s.arr]? = h[s.arr]?) :
    load h' s = load h s := by
  unfold load
  rw [hh]

theorem store_eq_some (h : Heap) (s : Slice) (r r' : Row) (hl : load h s = some r)
    (hr : r'.length = s.len) :
    ∃ a, h[s.arr]? = some a ∧ s.off + s.len ≤ a.length ∧
      store h s r' = some (h.set s.arr (a.take s.off ++ r' ++ a.drop (s.off + s.len))) := by
  obtain ⟨a, ha, hb, _⟩ := load_eq_some h s r hl
  refine ⟨a, ha, hb, ?_⟩
  unfold store
  simp only [ha, Option.bind_eq_bind, Option.some_bind]
  rw [if_pos ⟨hb, hr⟩]
  rfl

theorem load_set_same (h : Heap) (s : Slice) (a r' : Row) (hs : s.arr < h.length)
    (hb : s.off + s.len ≤ a.length) (hr : r'.length = s.len) :
    load (h.set s.arr (a.take s.off ++ r' ++ a.drop (s.off + s.len))) s = some r' := by
  unfold load
  rw [List.getElem?_set_self hs]
  simp only [Option.bind_eq_bind, Option.some_bind]
  have hlen : s.off + s.len ≤ (a.take s.off ++ r' ++ a.drop (s.off + s.len)).length := by
    simp only [List.length_append, List.length_take, List.length_drop]
    omega
  rw [if_pos hlen]
  have h1 : (a.take s.off).length = s.off := by
    rw [List.length_take]; omega
  rw [List.append_assoc, List.drop_left' h1, List.take_left' hr]
  rfl

theorem load_set_other (h : Heap) (s t : Slice) (v : Row) (hne : s.arr ≠ t.arr) :
    load (h.set s.arr v) t = load h t := by
  apply load_of_getElem?
  rw [List.getElem?_set_ne hne]

theorem store_spec (h : Heap) (s : Slice) (r r' : Row) (hl : load h s = some r)
    (hr : r'.length = s.len) :
    ∃ h2, store h s r' = some h2 ∧ load h2 s = some r' ∧
      ∀ t : Slice, t.arr ≠ s.arr → load h2 t = load h t := by
  obtain ⟨a, _, hb, hst⟩ := store_eq_some h s r r' hl hr
  exact ⟨_, hst, load_set_same h s a r' (load_arr_lt h s r hl) hb hr,
    fun t ht => load_set_other h s t _ (Ne.symm ht)⟩

theorem SetBit_length (e e' : Row) (n : Nat) (x : Bool) (hn : n < 8 * e.length)
    (hs : SetBit e (n : Int) x = some e') : e'.length = e.length := by
  obtain ⟨b, hb⟩ := inRange_getElem? e n hn
  rw [SetBit_natCast e n x b hb] at hs
  have := Option.some.inj hs
  rw [← this]
  by_cases hc : b.testBit (n % 8) = x
  · rw [if_pos hc]
  · rw [if_neg hc, List.length_set]

theorem SetBit_inRange (e : Row) (i : Int) (x : Bool) (h0 : 0 ≤ i) (h1 : i < Size e) :
    ∃ e', SetBit e i x = some e' ∧ e'.length = e.length := by
  obtain ⟨n, rfl, hn⟩ := int_inRange e i h0 h1
  obtain ⟨b, hb⟩ := inRange_getElem? e n hn
  exact ⟨_, SetBit_natCast e n x b hb, SetBit_length e _ n x hn (SetBit_natCast e n x b hb)⟩

theorem SetBitIn_spec (h : Heap) (s : Slice) (r : Row) (i : Int) (x : Bool)
    (hl : load h s = some r) (h0 : 0 ≤ i) (h1 : i < Size r) :
    ∃ h2 r', SetBit r i x = some r' ∧ SetBitIn h s i x = some h2 ∧
      load h2 s = some r' ∧ ∀ t : Slice, t.arr ≠ s.arr → load h2 t = load h t := by
  obtain ⟨r', hr', hl'⟩ := SetBit_inRange r i x h0 h1
  obtain ⟨h2, hst, hsame, hother⟩ :=
    store_spec h s r r' hl (by rw [hl', load_length h s r hl])
  refine ⟨h2, r', hr', ?_, hsame, hother⟩
  unfold SetBitIn
  simp only [Option.bind_eq_bind, hl, hr', Option.some_bind]
  exact hst

theorem Dup_eq_some (h : Heap) (e : Slice) (r : Row) (he : load h e = some r) :
    Dup h e = some (h ++ [r], (Slice.mk h.length 0 e.len)) := by
  have hlt := load_arr_lt h e r he
  have hlen := load_length h e r he
  have hsrc : load (h ++ [List.replicate e.len 0]) e = some r := by
    rw [load_of_getElem? h _ e (List.getElem?_append_left hlt), he]
  have hdst : load (h ++ [List.replicate e.len 0]) (Slice.mk h.length 0 e.len)
      = some (List.replicate e.len 0) := by
    unfold load
    simp
  unfold Dup make copy
  simp only [Option.bind_eq_bind, hsrc, hdst, Option.some_bind]
  have hrow : List.take (List.replicate e.len 0).length r
      ++ List.drop r.length (List.replicate e.len 0) = r := by
    simp [hlen]
  rw [hrow]
  unfold store
  simp [hlen]

/-! ### `SetBit` leaves the other bits alone -/

theorem GetBit_set_other (e : Row) (n m b : Nat) (hb : e[n / 8]? = some b) (hne : m ≠ n) :
    GetBit (e.set (n / 8) (b ^^^ 2 ^ (n % 8))) (m : Int) = GetBit e (m : Int) := by
  rw [GetBit_natCast, GetBit_natCast]
  by_cases hq : n / 8 = m / 8
  · have hlt : n / 8 < e.length := by
      by_contra hc
      rw [List.getElem?_eq_none (by omega)] at hb
      cases hb
    have hs : n % 8 ≠ m % 8 := by omega
    rw [← hq, List.getElem?_set_self hlt, hb]
    simp only [Option.map_some', testBit_flip_ne b _ _ hs]
  · rw [List.getElem?_set_ne hq]

theorem SetBit_again (e : Row) (n : Nat) (x : Bool) (b : Nat) (hb : e[n / 8]? = some b)
    (hx : ¬ b.testBit (n % 8) = x) :
    SetBit (e.set (n / 8) (b ^^^ 2 ^ (n % 8))) (n : Int) x
      = some (e.set (n / 8) (b ^^^ 2 ^ (n % 8))) := by
  have hlt : n / 8 < e.length := by
    by_contra hc
    rw [List.getElem?_eq_none (by omega)] at hb
    cases hb
  rw [SetBit_natCast _ n x (b ^^^ 2 ^ (n % 8)) (List.getElem?_set_self hlt), testBit_flip]
  have : (!b.testBit (n % 8)) = x := by
    cases x <;> cases hbit : b.testBit (n % 8) <;> simp_all
  rw [if_pos this]

/-! ### `DotProduct` as a parity, and its linearity -/

theorem DotProduct_eq_decide (e f : Row) (he : WF e) (h : e.length = f.length) :
    DotProduct e f = some (decide
      (((List.zipWith (fun a b => a &&& b) e f).map bitCount).sum % 2 = 1)) := by
  rw [DotProduct_eq_some e f he h, foldl_parity _ 0 (by decide), Nat.zero_add]
  congr 1

theorem Mul_comm (e f : Row) : Mul e f = Mul f e := by
  unfold Mul
  by_cases h : e.length = f.length
  · rw [if_neg (by simp [h]), if_neg (by simp [h])]
    congr 1
    induction e generalizing f with
    | nil => cases f <;> rfl
    | cons a e ih =>
      cases f with
      | nil => rfl
      | cons c f =>
        simp only [List.length_cons, Nat.add_right_cancel_iff] at h
        simp only [List.zipWith_cons_cons, ih f h, Nat.and_comm a c]
  · rw [if_pos h, if_pos (fun hc => h hc.symm)]

theorem DotProduct_comm (e f : Row) : DotProduct e f = DotProduct f e := by
  unfold DotProduct
  rw [Mul_comm e f]

theorem filter_xor_parity (l : List Nat) (p q : Nat → Bool) :
    (l.filter (fun k => p k ^^ q k)).length % 2
      = ((l.filter p).length + (l.filter q).length) % 2 := by
  induction l with
  | nil => rfl
  | cons k l ih =>
    cases hp : p k <;> cases hq : q k <;>
      simp only [List.filter_cons, hp, hq, Bool.xor_false, Bool.xor_true, Bool.not_false,
        Bool.not_true, Bool.false_eq_true, if_false, if_true, List.length_cons] <;> omega

theorem bitCount_xor (a b : Nat) :
    bitCount (a ^^^ b) % 2 = (bitCount a + bitCount b) % 2 := by
  unfold bitCount
  rw [← filter_xor_parity]
  congr 2
  apply List.filter_congr
  intro k _
  rw [Nat.testBit_xor]

theorem and_xor_distrib (a b c : Nat) : (a ^^^ b) &&& c = (a &&& c) ^^^ (b &&& c) := by
  apply Nat.eq_of_testBit_eq
  intro k
  simp only [Nat.testBit_and, Nat.testBit_xor]
  cases a.testBit k <;> cases b.testBit k <;> cases c.testBit k <;> rfl

theorem sum_bitCount_xor (e f g : Row) (h1 : e.length = f.length) (h2 : f.length = g.length) :
    (((List.zipWith (fun a b => a &&& b)
        (List.zipWith (fun a b => a ^^^ b) e f) g).map bitCount).sum) % 2
      = (((List.zipWith (fun a b => a &&& b) e g).map bitCount).sum
          + ((List.zipWith (fun a b => a &&& b) f g).map bitCount).sum) % 2 := by
  induction e generalizing f g with
  | nil => cases f <;> cases g <;> simp_all
  | cons a e ih =>
    cases f with
    | nil => simp at h1
    | cons b f =>
      cases g with
      | nil => simp at h2
      | cons c g =>
        simp only [List.length_cons, Nat.add_right_cancel_iff] at h1 h2
        have hi := ih f g h1 h2
        have hb := bitCount_xor (a &&& c) (b &&& c)
        simp only [List.zipWith_cons_cons, List.map_cons, List.sum_cons, and_xor_distrib]
        omega

theorem decide_parity_add (x y : Nat) :
    decide ((x + y) % 2 = 1) = (decide (x % 2 = 1) ^^ decide (y % 2 = 1)) := by
  rcases Nat.mod_two_eq_zero_or_one x with hx | hx <;>
    rcases Nat.mod_two_eq_zero_or_one y with hy | hy <;>
    · have : (x + y) % 2 = (x % 2 + y % 2) % 2 := by omega
      rw [this, hx, hy]
      rfl

/-! ## Theorems -/

/-- C1: for rows `i` and `j` of equal length, `i.Add(j).Add(j)` succeeds and
equals `i`. -/
theorem Add_Add_cancel (i j : Row) (h : i.length = j.length) :
    (Add i j).bind (fun r => Add r j) = some i := by
  rw [Add_eq_some i j h, Option.some_bind, Add_eq_some _ j (by simp [h]),
    zipWith_xor_cancel i j h]

theorem Add_Add_cancel_witness :
    [0x63, 0xCA, 0xB7].length = [0x04, 0x09, 0x53].length ∧
      (Add [0x63, 0xCA, 0xB7] [0x04, 0x09, 0x53]).bind (fun r => Add r [0x04, 0x09, 0x53])
        = some [0x63, 0xCA, 0xB7] :=
  ⟨by decide, Add_Add_cancel [0x63, 0xCA, 0xB7] [0x04, 0x09, 0x53] (by decide)⟩

/-- C2: for every row `i`, `i.Mul(i)` succeeds and equals `i`. -/
theorem Mul_idempotent (i : Row) : Mul i i = some i := by
  rw [Mul_eq_some i i rfl, zipWith_and_self]

/-- C3: each of `Add`, `Mul`, `DotProduct` and `LessThan` fails exactly when
the two rows have different lengths; on rows of equal length each succeeds, and
`Add` and `Mul` return a row of that same length (whose elements are bytes). -/
theorem binary_ops_fail_iff (e f : Row) (he : WF e) (hf : WF f) :
    ((Add e f = none ↔ e.length ≠ f.length) ∧
     (Mul e f = none ↔ e.length ≠ f.length) ∧
     (DotProduct e f = none ↔ e.length ≠ f.length) ∧
     (LessThan e f = none ↔ e.length ≠ f.length)) ∧
    (e.length = f.length →
      (∃ r, Add e f = some r ∧ r.length = e.length ∧ WF r) ∧
      (∃ r, Mul e f = some r ∧ r.length = e.length ∧ WF r) ∧
      (∃ b, DotProduct e f = some b) ∧
      (∃ b, LessThan e f = some b)) := by
  refine ⟨⟨?_, ?_, ?_, ?_⟩, ?_⟩
  · simp [Add]
  · simp [Mul]
  · by_cases h : e.length = f.length
    · simp [DotProduct_eq_some e f he h, h]
    · simp [DotProduct, Mul, h]
  · simp [LessThan]
  · intro h
    refine ⟨⟨_, Add_eq_some e f h, by simp [h], WF_zipWith_xor e f he hf⟩,
      ⟨_, Mul_eq_some e f h, by simp [h], WF_zipWith_and e f he⟩,
      ⟨_, DotProduct_eq_some e f he h⟩, ⟨LessThan.loop e f, by simp [LessThan, h]⟩⟩

theorem binary_ops_fail_iff_witness :
    (WF [0x0F, 0xA5] ∧ WF [0x3C, 0xFF] ∧ [0x0F, 0xA5].length = [0x3C, 0xFF].length) ∧
    ((Add [0x0F, 0xA5] [0x3C, 0xFF] = none ↔ [0x0F, 0xA5].length ≠ [0x3C, 0xFF].length) ∧
     (Mul [0x0F, 0xA5] [0x3C, 0xFF] = none ↔ [0x0F, 0xA5].length ≠ [0x3C, 0xFF].length) ∧
     (DotProduct [0x0F, 0xA5] [0x3C, 0xFF] = none
        ↔ [0x0F, 0xA5].length ≠ [0x3C, 0xFF].length) ∧
     (LessThan [0x0F, 0xA5] [0x3C, 0xFF] = none
        ↔ [0x0F, 0xA5].length ≠ [0x3C, 0xFF].length)) ∧
    ((∃ r, Add [0x0F, 0xA5] [0x3C, 0xFF] = some r ∧ r.length = [0x0F, 0xA5].length ∧ WF r) ∧
     (∃ r, Mul [0x0F, 0xA5] [0x3C, 0xFF] = some r ∧ r.length = [0x0F, 0xA5].length ∧ WF r) ∧
     (∃ b, DotProduct [0x0F, 0xA5] [0x3C, 0xFF] = some b) ∧
     (∃ b, LessThan [0x0F, 0xA5] [0x3C, 0xFF] = some b)) :=
  ⟨⟨by decide, by decide, by decide⟩,
    (binary_ops_fail_iff [0x0F, 0xA5] [0x3C, 0xFF] (by decide) (by decide)).1,
    (binary_ops_fail_iff [0x0F, 0xA5] [0x3C, 0xFF] (by decide) (by decide)).2 (by decide)⟩

/-- C4: for rows `e` and `f` of equal length, `e.DotProduct(f)` is the parity of
the component-wise AND: `e.Mul(f)` is a row `g`, `g.Weight()` is the number `w`
of bit positions `k < e.Size()` at which both `e` and `f` have bit 1, and
`e.DotProduct(f)` is true exactly when `w` is odd; and for every byte `b` the
table `weight` holds at bit `b % 64` of word `b / 64` the parity of `b`. -/
theorem DotProduct_parity (e f : Row) (he : WF e) (h : e.length = f.length) :
    (∃ g w, Mul e f = some g ∧ Weight g = some w ∧
      w = ((List.range (8 * e.length)).filter
            (fun (k : Nat) => GetBit e (k : Int) = some 1 ∧ GetBit f (k : Int) = some 1)).length ∧
      DotProduct e f = some (decide (w % 2 = 1))) ∧
    (∀ b < 256, (weight[b / 64]?).map (fun w => (w >>> (b % 64)) &&& 1)
      = some (bitCount b % 2)) := by
  refine ⟨⟨_, _, Mul_eq_some e f h, Weight_eq_setBits _, ?_, ?_⟩, weight_table⟩
  · rw [setBits_zipWith_and e f h]
  · rw [DotProduct_eq_some e f he h, foldl_parity _ 0 (by decide), setBits_length]
    rw [Nat.zero_add]
    congr 1

theorem DotProduct_parity_witness :
    (WF [0x03, 0x05] ∧ [0x03, 0x05].length = [0x01, 0x07].length) ∧
    ∃ g w, Mul [0x03, 0x05] [0x01, 0x07] = some g ∧ Weight g = some w ∧
      w = ((List.range (8 * [0x03, 0x05].length)).filter
            (fun (k : Nat) => GetBit [0x03, 0x05] (k : Int) = some 1 ∧
              GetBit [0x01, 0x07] (k : Int) = some 1)).length ∧
      DotProduct [0x03, 0x05] [0x01, 0x07] = some (decide (w % 2 = 1)) :=
  ⟨⟨by decide, by decide⟩,
    (DotProduct_parity [0x03, 0x05] [0x01, 0x07] (by decide) (by decide)).1⟩

/-- C5: evaluation of `LessThan` where it departs from the comparison of
heights.  The row `[0x00, 0x01]` has height 8 and the row `[0x01, 0x00]` has
height 0, yet `LessThan` of the two is false; the rows `[0x06]` and `[0x05]`
both have height 2, yet `LessThan` of the two is true. -/
theorem LessThan_not_by_height :
    (height [0x00, 0x01] = some 8 ∧ height [0x01, 0x00] = some 0 ∧
      LessThan [0x00, 0x01] [0x01, 0x00] = some false) ∧
    (height [0x06] = some 2 ∧ height [0x05] = some 2 ∧
      LessThan [0x06] [0x05] = some true) := by
  decide

/-- C6: evaluation of `LessThan` on unit rows.  In one byte the unit rows
`e_0 = [0x01]` and `e_1 = [0x02]` are ordered the other way round
(`LessThan(e_0, e_1)` is false and `LessThan(e_1, e_0)` is true); in two bytes
the unit rows `e_0 = [0x01, 0x00]` and `e_8 = [0x00, 0x01]` are not ordered at
all (`LessThan` is false both ways). -/
theorem LessThan_unit_rows :
    (unitRow 1 0 = some [0x01] ∧ unitRow 1 1 = some [0x02] ∧
      LessThan [0x01] [0x02] = some false ∧ LessThan [0x02] [0x01] = some true) ∧
    (unitRow 2 0 = some [0x01, 0x00] ∧ unitRow 2 8 = some [0x00, 0x01] ∧
      LessThan [0x01, 0x00] [0x00, 0x01] = some false ∧
      LessThan [0x00, 0x01] [0x01, 0x00] = some false) := by
  decide

/-- C7: for every row `e`, every index `i` with `0 <= i < e.Size()` and every
boolean `x`, the call `e.SetBit(i, x)` succeeds and afterwards `e.GetBit(i)`
returns 1 if `x` is true and 0 if `x` is false. -/
theorem GetBit_SetBit (e : Row) (i : Int) (x : Bool) (h0 : 0 ≤ i) (h1 : i < Size e) :
    ∃ e', SetBit e i x = some e' ∧ GetBit e' i = some (if x then 1 else 0) := by
  obtain ⟨n, rfl, hn⟩ := int_inRange e i h0 h1
  obtain ⟨b, hb⟩ := inRange_getElem? e n hn
  have hq : n / 8 < e.length := by omega
  refine ⟨_, SetBit_natCast e n x b hb, ?_⟩
  rw [GetBit_natCast]
  by_cases h : b.testBit (n % 8) = x
  · rw [if_pos h, hb]; simp [h]
  · rw [if_neg h, List.getElem?_set_self hq]
    simp only [Option.map_some', testBit_flip]
    cases x <;> cases hbit : b.testBit (n % 8) <;> simp_all

theorem GetBit_SetBit_witness :
    ((0 : Int) ≤ 9 ∧ (9 : Int) < Size [0x01, 0x80]) ∧
    ∃ e', SetBit [0x01, 0x80] 9 true = some e' ∧
      GetBit e' 9 = some (if true then 1 else 0) :=
  ⟨⟨by decide, by decide⟩, GetBit_SetBit [0x01, 0x80] 9 true (by decide) (by decide)⟩

/-- C8: for every row `e` and every index `i` with `0 <= i < e.Size()`,
`e.GetBit(i)` succeeds, returns 0 or 1, and equals bit number `i mod 8` of byte
`i div 8`, counting from the least significant bit; in the row `[0x01, 0x80]`
exactly the bits 0 and 15 are set. -/
theorem GetBit_little_endian (e : Row) (i : Int) (h0 : 0 ≤ i) (h1 : i < Size e) :
    (∃ b, e[(i / 8).toNat]? = some b ∧
      GetBit e i = some (b / 2 ^ (i % 8).toNat % 2) ∧
      (GetBit e i = some 0 ∨ GetBit e i = some 1)) ∧
    (∀ k : Nat, k < 16 →
      GetBit [0x01, 0x80] (k : Int) = some (if k = 0 ∨ k = 15 then 1 else 0)) := by
  refine ⟨?_, by decide⟩
  obtain ⟨n, rfl, hn⟩ := int_inRange e i h0 h1
  obtain ⟨b, hb⟩ := inRange_getElem? e n hn
  have e1 : ((n : Int) / 8).toNat = n / 8 := by omega
  have e2 : ((n : Int) % 8).toNat = n % 8 := by omega
  have hv : GetBit e (n : Int) = some (b / 2 ^ (n % 8) % 2) := by
    rw [GetBit_natCast, hb, Option.map_some', ← bit_eq_ite, bit_eq_div]
  refine ⟨b, by rw [e1]; exact hb, by rw [e2]; exact hv, ?_⟩
  rw [hv]
  have : b / 2 ^ (n % 8) % 2 < 2 := Nat.mod_lt _ (by decide)
  rcases Nat.lt_succ_iff_lt_or_eq.1 this with h | h
  · left; congr 1; omega
  · right; congr 1

theorem GetBit_little_endian_witness :
    ((0 : Int) ≤ 15 ∧ (15 : Int) < Size [0x01, 0x80]) ∧
    (∃ b, [0x01, 0x80][((15 : Int) / 8).toNat]? = some b ∧
      GetBit [0x01, 0x80] 15 = some (b / 2 ^ ((15 : Int) % 8).toNat % 2) ∧
      (GetBit [0x01, 0x80] 15 = some 0 ∨ GetBit [0x01, 0x80] 15 = some 1)) ∧
    (∀ k : Nat, k < 16 →
      GetBit [0x01, 0x80] (k : Int) = some (if k = 0 ∨ k = 15 then 1 else 0)) :=
  ⟨⟨by decide, by decide⟩, GetBit_little_endian [0x01, 0x80] 15 (by decide) (by decide)⟩

/-- C9: `e.Weight()` is the Hamming weight of `e`: the sum over the bytes of `e`
of the number of 1 bits of the byte; it lies between `0` and
`e.Size() = 8 * len(e)`. -/
theorem Weight_eq_popcount (e : Row) :
    Weight e = some ((e.map bitCount).sum) ∧
      (0 : Int) ≤ ((e.map bitCount).sum : Int) ∧
      (((e.map bitCount).sum : Nat) : Int) ≤ Size e ∧
      Size e = 8 * (e.length : Int) := by
  refine ⟨?_, by omega, ?_, rfl⟩
  · rw [Weight_eq_setBits, setBits_length]
  · have := sum_bitCount_le e
    unfold Size
    omega

/-- C10: for every row `e`, `e.IsZero()` is true exactly when `e.GetBit(k)` is 0
for every `k < e.Size()`, equivalently when `e.Weight()` is 0; the empty row is
zero. -/
theorem IsZero_correct (e : Row) (he : WF e) :
    (IsZero e = true ↔ ∀ k : Int, 0 ≤ k → k < Size e → GetBit e k = some 0) ∧
    (IsZero e = true ↔ Weight e = some 0) ∧
    IsZero [] = true := by
  have hw : IsZero e = true ↔ setBits e = [] := by
    rw [IsZero_iff, ← sum_bitCount_eq_zero e he, ← setBits_length, List.length_eq_zero]
  refine ⟨?_, ?_, rfl⟩
  · rw [hw, setBits_eq_nil_iff]
  · rw [hw, Weight_eq_setBits, Option.some.injEq, List.length_eq_zero]

theorem IsZero_correct_witness :
    WF [0x00, 0x00] ∧
    (IsZero [0x00, 0x00] = true ↔
      ∀ k : Int, 0 ≤ k → k < Size [0x00, 0x00] → GetBit [0x00, 0x00] k = some 0) ∧
    (IsZero [0x00, 0x00] = true ↔ Weight [0x00, 0x00] = some 0) ∧
    IsZero [] = true :=
  ⟨by decide, IsZero_correct [0x00, 0x00] (by decide)⟩

/-- C11: `e.Dup()` returns an independent copy.  On a heap where the slice `e`
holds the row `r`, `Dup` returns a slice `f` of the same length holding the same
bytes and leaves `e` as it was; a later `SetBit` on `f` within its size
succeeds, changes `f` as `SetBit` changes `r`, and leaves `e` holding `r`; a
later `SetBit` on `e` does the same to `e` and leaves `f` holding `r`. -/
theorem Dup_independent (h : Heap) (e : Slice) (r : Row) (he : load h e = some r) :
    ∃ h' f, Dup h e = some (h', f) ∧
      f.len = e.len ∧ load h' f = some r ∧ load h' e = some r ∧
      (∀ (i : Int) (x : Bool), 0 ≤ i → i < Size r →
        ∃ h2 r', SetBit r i x = some r' ∧ SetBitIn h' f i x = some h2 ∧
          load h2 f = some r' ∧ load h2 e = some r) ∧
      (∀ (i : Int) (x : Bool), 0 ≤ i → i < Size r →
        ∃ h2 r', SetBit r i x = some r' ∧ SetBitIn h' e i x = some h2 ∧
          load h2 e = some r' ∧ load h2 f = some r) := by
  have hlt := load_arr_lt h e r he
  have hlen := load_length h e r he
  have hf : load (h ++ [r]) (Slice.mk h.length 0 e.len) = some r := by
    unfold load
    simp [hlen]
  have he' : load (h ++ [r]) e = some r := by
    rw [load_of_getElem? h _ e (List.getElem?_append_left hlt), he]
  refine ⟨h ++ [r], _, Dup_eq_some h e r he, rfl, hf, he', ?_, ?_⟩
  · intro i x h0 h1
    obtain ⟨h2, r', hr', hset, hsame, hother⟩ := SetBitIn_spec _ _ r i x hf h0 h1
    exact ⟨h2, r', hr', hset, hsame, by rw [hother e (by simp only; omega), he']⟩
  · intro i x h0 h1
    obtain ⟨h2, r', hr', hset, hsame, hother⟩ := SetBitIn_spec _ e r i x he' h0 h1
    exact ⟨h2, r', hr', hset, hsame, by rw [hother _ (by simp only; omega), hf]⟩

theorem Dup_independent_witness :
    load [[0x01, 0x80, 0xFF]] (Slice.mk 0 1 2) = some [0x80, 0xFF] ∧
    ∃ h' f, Dup [[0x01, 0x80, 0xFF]] (Slice.mk 0 1 2) = some (h', f) ∧
      f.len = 2 ∧ load h' f = some [0x80, 0xFF] ∧
      load h' (Slice.mk 0 1 2) = some [0x80, 0xFF] ∧
      (∀ (i : Int) (x : Bool), 0 ≤ i → i < Size [0x80, 0xFF] →
        ∃ h2 r', SetBit [0x80, 0xFF] i x = some r' ∧ SetBitIn h' f i x = some h2 ∧
          load h2 f = some r' ∧
          load h2 (Slice.mk 0 1 2) = some [0x80, 0xFF]) ∧
      (∀ (i : Int) (x : Bool), 0 ≤ i → i < Size [0x80, 0xFF] →
        ∃ h2 r', SetBit [0x80, 0xFF] i x = some r' ∧
          SetBitIn h' (Slice.mk 0 1 2) i x = some h2 ∧
          load h2 (Slice.mk 0 1 2) = some r' ∧
          load h2 f = some [0x80, 0xFF]) :=
  ⟨by decide, Dup_independent [[0x01, 0x80, 0xFF]] (Slice.mk 0 1 2)
    [0x80, 0xFF] (by decide)⟩

/-- C18: for every row `e`, every index `i` with `0 <= i < e.Size()` and every
boolean `x`, `e.SetBit(i, x)` changes nothing but bit `i`: the length is
unchanged, `GetBit(k)` is unchanged for every `k != i` with
`0 <= k < e.Size()`, and a second `SetBit(i, x)` leaves the row as the first
one made it. -/
theorem SetBit_frame (e : Row) (i : Int) (x : Bool) (h0 : 0 ≤ i) (h1 : i < Size e) :
    ∃ e', SetBit e i x = some e' ∧ e'.length = e.length ∧
      (∀ k : Int, 0 ≤ k → k < Size e → k ≠ i → GetBit e' k = GetBit e k) ∧
      SetBit e' i x = some e' := by
  obtain ⟨n, rfl, hn⟩ := int_inRange e i h0 h1
  obtain ⟨b, hb⟩ := inRange_getElem? e n hn
  have hs := SetBit_natCast e n x b hb
  by_cases hx : b.testBit (n % 8) = x
  · rw [if_pos hx] at hs
    exact ⟨e, hs, rfl, fun _ _ _ _ => rfl, hs⟩
  · rw [if_neg hx] at hs
    refine ⟨_, hs, List.length_set _ _ _, ?_, SetBit_again e n x b hb hx⟩
    intro k k0 k1 kne
    obtain ⟨m, rfl, _⟩ := int_inRange e k k0 k1
    exact GetBit_set_other e n m b hb (fun hc => kne (by rw [hc]))

theorem SetBit_frame_witness :
    ((0 : Int) ≤ 9 ∧ (9 : Int) < Size [0x01, 0x80]) ∧
    ∃ e', SetBit [0x01, 0x80] 9 true = some e' ∧ e'.length = [0x01, 0x80].length ∧
      (∀ k : Int, 0 ≤ k → k < Size [0x01, 0x80] → k ≠ 9 →
        GetBit e' k = GetBit [0x01, 0x80] k) ∧
      SetBit e' 9 true = some e' :=
  ⟨⟨by decide, by decide⟩, SetBit_frame [0x01, 0x80] 9 true (by decide) (by decide)⟩

/-- C19: `DotProduct` is linear over `Add` and symmetric: for rows `e`, `f`, `g`
of equal length all the dot products succeed, `e.Add(f).DotProduct(g)` is
`e.DotProduct(g)` XOR `f.DotProduct(g)`, and `g.DotProduct(e)` equals
`e.DotProduct(g)`. -/
theorem DotProduct_linear (e f g : Row) (he : WF e) (hf : WF f)
    (h1 : e.length = f.length) (h2 : f.length = g.length) :
    ∃ a b, DotProduct e g = some a ∧ DotProduct f g = some b ∧
      (Add e f).bind (fun s => DotProduct s g) = some (a ^^ b) ∧
      DotProduct g e = some a := by
  have hee := DotProduct_eq_decide e g he (h1.trans h2)
  refine ⟨_, _, hee, DotProduct_eq_decide f g hf h2, ?_, ?_⟩
  · rw [Add_eq_some e f h1, Option.some_bind,
      DotProduct_eq_decide _ g (WF_zipWith_xor e f he hf) (by simp [h1, h2]),
      sum_bitCount_xor e f g h1 h2, decide_parity_add]
  · rw [DotProduct_comm g e, hee]

theorem DotProduct_linear_witness :
    (WF [0x03, 0x05] ∧ WF [0x0A, 0xF0] ∧ [0x03, 0x05].length = [0x0A, 0xF0].length ∧
      [0x0A, 0xF0].length = [0x01, 0x17].length) ∧
    ∃ a b, DotProduct [0x03, 0x05] [0x01, 0x17] = some a ∧
      DotProduct [0x0A, 0xF0] [0x01, 0x17] = some b ∧
      (Add [0x03, 0x05] [0x0A, 0xF0]).bind (fun s => DotProduct s [0x01, 0x17])
        = some (a ^^ b) ∧
      DotProduct [0x01, 0x17] [0x03, 0x05] = some a :=
  ⟨⟨by decide, by decide, by decide, by decide⟩,
    DotProduct_linear [0x03, 0x05] [0x0A, 0xF0] [0x01, 0x17]
      (by decide) (by decide) (by decide) (by decide)⟩

end matrix

namespace chow

/-! ## Helper lemmas for the key generator -/

theorem shiftRoundKeys_apply (m : saes.Methods) (constr : saes.Construction)
    (roundKeys : Fin 11 → Fin 16 → Nat) (k : Fin 11) :
    shiftRoundKeys m constr roundKeys k
      = if k.val < 10 then m.ShiftRows constr (roundKeys k) else roundKeys k := by
  have hl : List.finRange 10 = [0, 1, 2, 3, 4, 5, 6, 7, 8, 9] := by decide
  unfold shiftRoundKeys
  rw [hl]
  fin_cases k <;> rfl

theorem shiftRoundKeys_round (m : saes.Methods) (constr : saes.Construction)
    (roundKeys : Fin 11 → Fin 16 → Nat) (round : Fin 9) :
    shiftRoundKeys m constr roundKeys (Fin.castLE (by decide) round)
      = m.ShiftRows constr (roundKeys (Fin.castLE (by decide) round)) := by
  rw [shiftRoundKeys_apply, if_pos]
  have := round.isLt
  simp only [Fin.coe_castLE]
  omega

theorem source_eq (i : Fin 16) : (ShiftRows.source i).val = 5 * i.val % 16 := by
  unfold ShiftRows.source
  simp only
  omega

theorem source_four : ∀ i : Fin 16,
    ShiftRows.source (ShiftRows.source (ShiftRows.source (ShiftRows.source i))) = i := by
  decide

theorem inputLocation_injective : Function.Injective inputLocation := by
  rintro ⟨p, t, h⟩ ⟨p', t', h'⟩ heq
  simp only [inputLocation, Prod.mk.injEq, Fin.mk.injEq] at heq
  have := p.isLt
  have := p'.isLt
  have := t.isLt
  have := t'.isLt
  have := h.isLt
  have := h'.isLt
  refine Prod.ext (Fin.ext ?_) (Prod.ext (Fin.ext ?_) (Fin.ext ?_)) <;> simp only <;> omega

/-! ## Theorems about the key generator -/

/-- C13: for every key, every round `r` in 0..8 and every position `p` in
0..15, `GenerateKeys` sets `tyi[r][p]` to the word table with the identity byte
encoding on input, the word encoding of the position on output, and the inner
table `ComposedToWord{TBox, TyiTable(p mod 4)}`; the T-Box is keyed with byte
`p` of ShiftRows of round key `r` of the key schedule and has the trailing key
0, so that it computes `Sbox(x XOR key byte)`. -/
theorem GenerateKeys_tyi (m : saes.Methods) (key : Fin 16 → Nat) (r : Fin 9) (p : Fin 16) :
    ∃ tb : table.Byte,
      (GenerateKeys m key).tyi r p
        = table.Word.WordTable encoding.Byte.IdentityByte
            (encoding.Word.WordEncodingForLocation p.val)
            (table.Word.ComposedToWord tb (table.Word.TyiTable (p.val % 4))) ∧
      tb = table.Byte.TBox (saes.Construction.mk key)
            (m.ShiftRows (saes.Construction.mk key)
              (m.StretchedKey (saes.Construction.mk key) (Fin.castLE (by decide) r)) p) 0 ∧
      ∀ x : Nat, tb.Get m x
        = m.SubByte (saes.Construction.mk key)
            (x ^^^ m.ShiftRows (saes.Construction.mk key)
              (m.StretchedKey (saes.Construction.mk key) (Fin.castLE (by decide) r)) p) := by
  refine ⟨_, rfl, ?_, ?_⟩
  · rw [shiftRoundKeys_round]
  · intro x
    rw [shiftRoundKeys_round]
    simp only [table.Byte.Get, Nat.xor_zero]

/-- C14: for every key and every position `p` in 0..15, the final-round table
`tbox[p]` built by `GenerateKeys` is the T-Box, with no diffusion table, that
computes `Sbox(x XOR roundKey[9][p]) XOR roundKey[10][p]`, where `roundKey[9]`
is ShiftRows of round key 9 of the key schedule and `roundKey[10]` is round key
10 of the key schedule as the oracle returned it. -/
theorem GenerateKeys_tbox (m : saes.Methods) (key : Fin 16 → Nat) (p : Fin 16) :
    (GenerateKeys m key).tbox p
      = table.Byte.TBox (saes.Construction.mk key)
          (m.ShiftRows (saes.Construction.mk key)
            (m.StretchedKey (saes.Construction.mk key) 9) p)
          (m.StretchedKey (saes.Construction.mk key) 10 p) ∧
    ∀ x : Nat, ((GenerateKeys m key).tbox p).Get m x
      = m.SubByte (saes.Construction.mk key)
          (x ^^^ m.ShiftRows (saes.Construction.mk key)
            (m.StretchedKey (saes.Construction.mk key) 9) p)
        ^^^ m.StretchedKey (saes.Construction.mk key) 10 p := by
  have h9 := shiftRoundKeys_apply m (saes.Construction.mk key)
    (m.StretchedKey (saes.Construction.mk key)) 9
  have h10 := shiftRoundKeys_apply m (saes.Construction.mk key)
    (m.StretchedKey (saes.Construction.mk key)) 10
  rw [if_pos (by decide)] at h9
  rw [if_neg (by decide)] at h10
  have ht : (GenerateKeys m key).tbox p
      = table.Byte.TBox (saes.Construction.mk key)
          (m.ShiftRows (saes.Construction.mk key)
            (m.StretchedKey (saes.Construction.mk key) 9) p)
          (m.StretchedKey (saes.Construction.mk key) 10 p) := by
    show table.Byte.TBox _ _ _ = _
    rw [h9, h10]
  refine ⟨ht, fun x => ?_⟩
  rw [ht]
  rfl

/-- C15, as the code has it: the output encoding of `tyi[r][p]` is selected by
the byte position `p` alone, `WordEncodingForLocation(p)`; two wires have
output encodings selected by the same location exactly when their positions
are equal, whatever their rounds. -/
theorem GenerateKeys_tyi_Out (m : saes.Methods) (key : Fin 16 → Nat)
    (r1 r2 : Fin 9) (p1 p2 : Fin 16) :
    ((GenerateKeys m key).tyi r1 p1).Out
        = some (encoding.Word.WordEncodingForLocation p1.val) ∧
    (((GenerateKeys m key).tyi r1 p1).Out = ((GenerateKeys m key).tyi r2 p2).Out
      ↔ p1 = p2) := by
  refine ⟨rfl, ?_⟩
  show some (encoding.Word.WordEncodingForLocation p1.val)
    = some (encoding.Word.WordEncodingForLocation p2.val) ↔ p1 = p2
  simp only [Option.some.injEq, encoding.Word.WordEncodingForLocation.injEq]
  exact Fin.val_inj

/-- C15 fails for the wires (0, 0) and (1, 0): they are distinct, and for every
key the output encodings of `tyi[0][0]` and `tyi[1][0]` are selected by the
same location, `WordEncodingForLocation(0)`. -/
theorem GenerateKeys_tyi_Out_shared :
    ((0 : Fin 9), (0 : Fin 16)) ≠ ((1 : Fin 9), (0 : Fin 16)) ∧
    ∀ (m : saes.Methods) (key : Fin 16 → Nat),
      ((GenerateKeys m key).tyi 0 0).Out = some (encoding.Word.WordEncodingForLocation 0) ∧
      ((GenerateKeys m key).tyi 1 0).Out = some (encoding.Word.WordEncodingForLocation 0) :=
  ⟨by decide, fun _ _ => ⟨rfl, rfl⟩⟩

/-- C16: for every key, every round `r` in 0..8 and every cell `c` in 0..31, the
reduction cell `xor[r][c]` is a two-level tree: its tables 0 and 1 are XOR
tables whose input is encoded by the concatenation of two nibble encodings
(those of the locations `(c/8*4 + 0, c%8)`, `(c/8*4 + 1, c%8)` and
`(c/8*4 + 2, c%8)`, `(c/8*4 + 3, c%8)`), its table 2 is a bare XOR table; and
the cells are the same for every key. -/
theorem GenerateKeys_xor (m : saes.Methods) (key : Fin 16 → Nat) (r : Fin 9) (c : Fin 32) :
    (GenerateKeys m key).xor r c 0
      = table.Nibble.NibbleTable
          (encoding.Byte.ConcatenatedByte
            (encoding.Nibble.ForLocation (c.val / 8 * 4 + 0) (c.val % 8))
            (encoding.Nibble.ForLocation (c.val / 8 * 4 + 1) (c.val % 8)))
          encoding.Byte.IdentityByte table.Nibble.XORTable ∧
    (GenerateKeys m key).xor r c 1
      = table.Nibble.NibbleTable
          (encoding.Byte.ConcatenatedByte
            (encoding.Nibble.ForLocation (c.val / 8 * 4 + 2) (c.val % 8))
            (encoding.Nibble.ForLocation (c.val / 8 * 4 + 3) (c.val % 8)))
          encoding.Byte.IdentityByte table.Nibble.XORTable ∧
    (GenerateKeys m key).xor r c 2 = table.Nibble.XORTable ∧
    ∀ (m' : saes.Methods) (key' : Fin 16 → Nat),
      (GenerateKeys m' key').xor = (GenerateKeys m key).xor :=
  ⟨rfl, rfl, rfl, fun _ _ => rfl⟩

/-- C17: for every 16-byte state, `ShiftRows` puts input byte `5 * i mod 16` at
position `i`; applied four times it returns the original state; applied once
to `{99,202,183,4,9,83,208,81,205,96,224,231,186,112,225,140}` it yields
`{99,83,224,140,9,96,225,4,205,112,183,81,186,202,208,231}`. -/
theorem ShiftRows_order_four (state : Fin 16 → Nat) :
    (∀ i : Fin 16, ShiftRows state i = state ⟨5 * i.val % 16, Nat.mod_lt _ (by decide)⟩) ∧
    ShiftRows (ShiftRows (ShiftRows (ShiftRows state))) = state ∧
    List.ofFn (ShiftRows (stateOf
        [99, 202, 183, 4, 9, 83, 208, 81, 205, 96, 224, 231, 186, 112, 225, 140]))
      = [99, 83, 224, 140, 9, 96, 225, 4, 205, 112, 183, 81, 186, 202, 208, 231] := by
  refine ⟨fun i => ?_, ?_, by decide⟩
  · unfold ShiftRows
    congr 1
    exact Fin.ext (source_eq i)
  · funext i
    unfold ShiftRows
    rw [source_four i]

/-- C20: within each round the input encodings of the first-level XOR tables
cover every word-table output nibble exactly once: the input of table `t` of
cell `pos` is encoded by the concatenation of the nibble encodings of the
locations `inputLocation (pos, t, 0)` and `inputLocation (pos, t, 1)`, that is
`(pos/8*4 + 2*t + h, pos mod 8)`, and this map is a bijection from
`{0..31} x {0,1} x {0,1}` onto `{0..15} x {0..7}`. -/
theorem GenerateKeys_xor_locations (m : saes.Methods) (key : Fin 16 → Nat) (r : Fin 9) :
    (∀ (pos : Fin 32) (t : Fin 2),
      ((GenerateKeys m key).xor r pos (Fin.castLE (by decide) t)).In
        = some (encoding.Byte.ConcatenatedByte
            (encoding.Nibble.ForLocation (inputLocation (pos, t, 0)).1.val
              (inputLocation (pos, t, 0)).2.val)
            (encoding.Nibble.ForLocation (inputLocation (pos, t, 1)).1.val
              (inputLocation (pos, t, 1)).2.val))) ∧
    (∀ p : Fin 32 × Fin 2 × Fin 2,
      (inputLocation p).1.val = p.1.val / 8 * 4 + 2 * p.2.1.val + p.2.2.val ∧
      (inputLocation p).2.val = p.1.val % 8) ∧
    Function.Bijective inputLocation := by
  refine ⟨?_, fun _ => ⟨rfl, rfl⟩, ?_⟩
  · intro pos t
    fin_cases t <;> rfl
  · rw [Fintype.bijective_iff_injective_and_card]
    exact ⟨inputLocation_injective, by simp⟩

end chow
